import Mathlib

/-!
Verification development for the supervised-contrastive training program
(`SupervisedContrastiveTraining.py`).  The class-indexed memory queue, the
momentum synchronization rule and the contrastive loss `chr_loss` are embedded
shallowly: tensors become lists or `Fin`-indexed functions over exact numbers
(`ℚ` for the parameter updates, `ℝ` for the loss), the data loader becomes a
list of batches, and operations that raise a runtime error (popping from an
empty list, `torch.cat` over an empty list, IEEE division by zero) return
`Option`, with `none` marking the failure.
-/

namespace SupervisedContrast

/-- Queue state: a mapping from class index to the ordered sequence of entries
appended so far.  In the source, `self.queue` is a dict `{class index : list of
embedding tensors}`; each entry of a slot is one batch's worth of embeddings of
that class, modelled as a `List α` (the rows of the tensor, `α` the embedding
type). -/
def Queue (α : Type) : Type := ℕ → List (List α)

/-- Rows of `teacher_forward(x[mask])` for `mask = (y == c)`: the embeddings of
the samples of the batch whose label is `c`, in batch order.  `f` is the
teacher+head composition `teacher_forward`, an external black box applied to
each selected sample. -/
def batchClassEmbeds {I α : Type} (f : I → α) (b : List (I × ℕ)) (c : ℕ) :
    List α :=
  (b.filter (fun p => p.2 = c)).map (fun p => f p.1)

/-- Processing of one loader batch inside `enqueue`: for every class
`i in range(num_classes)`, append the batch's class-`i` embedding tensor to
slot `i` (the tensor may be empty when the batch has no sample of class `i`). -/
def enqueueBatch {I α : Type} (f : I → α) (C : ℕ) (q : Queue α)
    (b : List (I × ℕ)) : Queue α :=
  fun c => if c < C then q c ++ [batchClassEmbeds f b c] else q c

/-- Embedding of `enqueue(size)`: iterate the loader from its start, stopping
once `size` batches have been processed (`if step >= size: break`), and fold
each processed batch into the queue. -/
def enqueue {I α : Type} (f : I → α) (C : ℕ) (loader : List (List (I × ℕ)))
    (size : ℕ) (q : Queue α) : Queue α :=
  (loader.take size).foldl (enqueueBatch f C) q

/-- Embedding of `initialize_queue(queue_size)`: reset every slot to the empty
sequence, then `enqueue(queue_size)`. -/
def initialize_queue {I α : Type} (f : I → α) (C : ℕ)
    (loader : List (List (I × ℕ))) (queue_size : ℕ) : Queue α :=
  enqueue f C loader queue_size (fun _ => [])

/-- Iterated `list.pop(0)`: remove the front element `n` times; popping an
empty list raises `IndexError`, modelled as `none`. -/
def popFrontN {β : Type} : ℕ → List β → Option (List β)
  | 0, l => some l
  | _ + 1, [] => none
  | n + 1, _ :: tl => popFrontN n tl

/-- Embedding of `dequeue(size)`: every slot `i in range(num_classes)` pops its
oldest entry `size` times.  If any slot underflows the call raises, modelled as
`none` for the whole call. -/
def dequeue {α : Type} (C : ℕ) (size : ℕ) (q : Queue α) : Option (Queue α) :=
  if h : ∀ c, c < C → (popFrontN size (q c)).isSome then
    some (fun c => if hc : c < C then (popFrontN size (q c)).get (h c hc)
                   else q c)
  else none

/-- Embedding of `get_queue`: concatenate each slot's entries
(`torch.cat(self.queue[i], dim=0)`), emit `i` repeated once per resulting row,
and concatenate over classes in order `0..C-1`.  `torch.cat` over an empty list
of tensors raises, so the call fails unless `C > 0` and every slot has at least
one entry. -/
def get_queue {α : Type} (C : ℕ) (q : Queue α) : Option (List α × List ℕ) :=
  if 0 < C ∧ ∀ c, c < C → (q c).length ≠ 0 then
    some (((List.range C).map (fun c => (q c).flatten)).flatten,
          ((List.range C).map
            (fun c => List.replicate ((q c).flatten).length c)).flatten)
  else none

/-- Number of samples with label `c` among the first `size` loader batches. -/
def classCount {I : Type} (c : ℕ) (loader : List (List (I × ℕ))) (size : ℕ) :
    ℕ :=
  ((loader.take size).map (fun b => (b.filter (fun p => p.2 = c)).length)).sum

/-- Total number of embedding rows stored in one queue slot (the sum of its
entries' sizes). -/
def slotSamples {α : Type} (slot : List (List α)) : ℕ :=
  (slot.map List.length).sum

/-- All class slots `0..C-1` hold the same number of entries. -/
def EqualLens {α : Type} (C : ℕ) (q : Queue α) : Prop :=
  ∀ c c', c < C → c' < C → (q c).length = (q c').length

/-- Elementwise momentum update of one teacher parameter tensor from the
aligned student tensor: `t.data = m*t.data + (1-m)*s.data`. -/
def momentum_update (m : ℚ) (s t : List ℚ) : List ℚ :=
  List.zipWith (fun sv tv => m * tv + (1 - m) * sv) s t

/-- Embedding of `momentum_synchronize(m)`: zip the student and teacher
parameter sequences positionally and update every teacher tensor in place.
Each parameter tensor is modelled as the flat list of its scalar entries. -/
def momentum_synchronize (m : ℚ) (student teacher : List (List ℚ)) :
    List (List ℚ) :=
  List.zipWith (momentum_update m) student teacher

/-- L2 norm of a row vector, as computed by `F.normalize(·, dim=1)` (the `p=2`
norm along the feature dimension). -/
noncomputable def l2norm {d : ℕ} (v : Fin d → ℝ) : ℝ :=
  Real.sqrt (∑ j, v j ^ 2)

/-- Row normalization `F.normalize(x, dim=1)`: divide the row by its L2 norm.
In exact real arithmetic `0 / 0 = 0`, which agrees with the effect of the
implementation's epsilon clamp on the zero vector. -/
noncomputable def l2normalize {d : ℕ} (v : Fin d → ℝ) : Fin d → ℝ :=
  fun j => v j / l2norm v

/-- Row-wise softmax `F.softmax(·, dim=1)` applied to one row. -/
noncomputable def softmaxRow {n : ℕ} (g : Fin n → ℝ) : Fin n → ℝ :=
  fun j => Real.exp (g j) / ∑ k, Real.exp (g k)

open scoped Classical in
/-- Embedding of `chr_loss(x, y, queue_x, queue_y, t)`, transliterated line by
line: normalize both embedding sets, form `gram = x @ queue_x.T / t`, form
`label_mask = y.float().unsqueeze(1) @ queue_y.float().unsqueeze(0)`, take
`log(softmax(gram, dim=1))` and return
`sum(-label_mask * log_probs) / sum(label_mask)`.  The final division is the
only operation that can be non-finite in IEEE arithmetic (softmax outputs are
strictly positive in exact arithmetic, so the logarithms are finite); a zero
denominator is modelled as `none`. -/
noncomputable def chr_loss {n1 n2 d : ℕ} (x : Fin n1 → Fin d → ℝ)
    (y : Fin n1 → ℕ) (queue_x : Fin n2 → Fin d → ℝ) (queue_y : Fin n2 → ℕ)
    (t : ℝ) : Option ℝ :=
  let xn := fun i => l2normalize (x i)
  let qn := fun j => l2normalize (queue_x j)
  let gram : Fin n1 → Fin n2 → ℝ := fun i j => (∑ k, xn i k * qn j k) / t
  let label_mask : Fin n1 → Fin n2 → ℝ :=
    fun i j => (y i : ℝ) * (queue_y j : ℝ)
  let log_probs : Fin n1 → Fin n2 → ℝ :=
    fun i j => Real.log (softmaxRow (gram i) j)
  if (∑ i, ∑ j, label_mask i j) = 0 then none
  else some ((∑ i, ∑ j, -label_mask i j * log_probs i j) /
             (∑ i, ∑ j, label_mask i j))

/-- Label mask as the spec words it: the numeric outer product of the batch
label values and the queue label values, `labelMask[i,j] = y_i * queue_y_j`
(not an equality indicator). -/
noncomputable def labelMask {n1 n2 : ℕ} (y : Fin n1 → ℕ) (queue_y : Fin n2 → ℕ) :
    Fin n1 → Fin n2 → ℝ :=
  fun i j => (y i : ℝ) * (queue_y j : ℝ)

/-- Similarity matrix as the spec words it:
`gram = normalize(x) @ normalize(queue_x)^T / t`. -/
noncomputable def gramMatrix {n1 n2 d : ℕ} (x : Fin n1 → Fin d → ℝ)
    (queue_x : Fin n2 → Fin d → ℝ) (t : ℝ) : Fin n1 → Fin n2 → ℝ :=
  fun i j => (∑ k, l2normalize (x i) k * l2normalize (queue_x j) k) / t

open scoped Classical in
/-- Loss as the spec words it: apply row-wise softmax to `gram`, then return
`-sum(labelMask * log(softmax_probs)) / sum(labelMask)` (non-finite, i.e.
`none`, when the denominator is zero). -/
noncomputable def chr_lossSpec {n1 n2 d : ℕ} (x : Fin n1 → Fin d → ℝ)
    (y : Fin n1 → ℕ) (queue_x : Fin n2 → Fin d → ℝ) (queue_y : Fin n2 → ℕ)
    (t : ℝ) : Option ℝ :=
  if (∑ i, ∑ j, labelMask y queue_y i j) = 0 then none
  else some ((-∑ i, ∑ j, labelMask y queue_y i j *
                Real.log (softmaxRow (gramMatrix x queue_x t i) j)) /
             (∑ i, ∑ j, labelMask y queue_y i j))


section QueueLemmas

variable {I α : Type}

lemma foldl_enqueueBatch_apply (f : I → α) (C : ℕ) :
    ∀ (bs : List (List (I × ℕ))) (q : Queue α) (c : ℕ), c < C →
      (bs.foldl (enqueueBatch f C) q) c
        = q c ++ bs.map (fun b => batchClassEmbeds f b c)
  | [], q, c, _ => by simp
  | b :: bs, q, c, hc => by
      simp only [List.foldl_cons, List.map_cons]
      rw [foldl_enqueueBatch_apply f C bs _ c hc]
      simp [enqueueBatch, hc]

lemma enqueue_apply (f : I → α) (C : ℕ) (loader : List (List (I × ℕ)))
    (size : ℕ) (q : Queue α) (c : ℕ) (hc : c < C) :
    enqueue f C loader size q c
      = q c ++ (loader.take size).map (fun b => batchClassEmbeds f b c) :=
  foldl_enqueueBatch_apply f C (loader.take size) q c hc

lemma popFrontN_eq {β : Type} :
    ∀ (n : ℕ) (l : List β),
      popFrontN n l = if n ≤ l.length then some (l.drop n) else none
  | 0, l => by simp [popFrontN]
  | n + 1, [] => by simp [popFrontN]
  | n + 1, a :: tl => by
      rw [show popFrontN (n + 1) (a :: tl) = popFrontN n tl from rfl,
        popFrontN_eq n tl]
      simp [Nat.succ_le_succ_iff]

lemma dequeue_eq_some {C size : ℕ} {q : Queue α}
    (h : ∀ c, c < C → size ≤ (q c).length) :
    dequeue C size q
      = some (fun c => if c < C then (q c).drop size else q c) := by
  have hall : ∀ c, c < C → (popFrontN size (q c)).isSome := by
    intro c hc
    rw [popFrontN_eq, if_pos (h c hc)]
    rfl
  unfold dequeue
  rw [dif_pos hall]
  congr 1
  funext c
  by_cases hc : c < C
  · rw [dif_pos hc, if_pos hc]
    have hps : popFrontN size (q c) = some ((q c).drop size) := by
      rw [popFrontN_eq, if_pos (h c hc)]
    simp [hps]
  · rw [dif_neg hc, if_neg hc]

lemma dequeue_eq_none {C size : ℕ} {q : Queue α}
    (h : ∃ c, c < C ∧ (q c).length < size) :
    dequeue C size q = none := by
  obtain ⟨c, hc, hlen⟩ := h
  unfold dequeue
  rw [dif_neg]
  intro hall
  have := hall c hc
  rw [popFrontN_eq, if_neg (Nat.not_le.2 hlen)] at this
  simp at this

lemma dequeue_some_inv {C size : ℕ} {q q' : Queue α}
    (h : dequeue C size q = some q') :
    (∀ c, c < C → size ≤ (q c).length) ∧
    (∀ c, c < C → q' c = (q c).drop size) ∧
    (∀ c, C ≤ c → q' c = q c) := by
  by_cases hle : ∀ c, c < C → size ≤ (q c).length
  · rw [dequeue_eq_some hle] at h
    refine ⟨hle, ?_, ?_⟩
    · intro c hc
      rw [← Option.some_inj.1 h]
      simp [hc]
    · intro c hc
      rw [← Option.some_inj.1 h]
      simp [Nat.not_lt.2 hc]
  · exfalso
    push_neg at hle
    obtain ⟨c, hc, hlen⟩ := hle
    rw [dequeue_eq_none ⟨c, hc, hlen⟩] at h
    exact Option.noConfusion h

/-- Entry counts of the class slots are unchanged between two queue states. -/
def PreservesSlotLens {α : Type} (C : ℕ) (q q' : Queue α) : Prop :=
  ∀ c, c < C → (q' c).length = (q c).length

end QueueLemmas

section QueueClaims

variable {I α : Type}

/-- C3 (counterexample): with 2 classes, one loader batch holding two samples
of class 1 and `queueSize = 1`, slot 1 holds a single entry (the batch's
class-1 tensor of two rows), so `len(queue[1])` is 1 while the number of
class-1 samples among the first `queueSize` batches is 2. -/
theorem initialize_queue_len_counterexample :
    ((initialize_queue (fun n : ℕ => n) 2 [[(5, 1), (6, 1)]] 1) 1).length
      ≠ classCount 1 [[(5, 1), (6, 1)]] 1 := by
  decide

/-- C3 (amended): after `initialize_queue(queueSize)`, for every class
`c < num_classes` the total number of embedding rows stored in `queue[c]`
equals the number of samples of class `c` among the first `queueSize`
data-loader batches, while `len(queue[c])` itself equals
`min queueSize (number of batches)`. -/
theorem initialize_queue_sample_count (f : I → α) (C : ℕ)
    (loader : List (List (I × ℕ))) (qs c : ℕ) (hc : c < C) :
    slotSamples (initialize_queue f C loader qs c) = classCount c loader qs ∧
    (initialize_queue f C loader qs c).length = min qs loader.length := by
  unfold initialize_queue
  rw [enqueue_apply f C loader qs _ c hc]
  constructor
  · simp [slotSamples, classCount, batchClassEmbeds, List.map_map,
      Function.comp_def]
  · simp

theorem initialize_queue_sample_count_witness :
    slotSamples (initialize_queue (fun n : ℕ => n) 2 [[(5, 1), (6, 1)]] 1 1)
        = classCount 1 [[(5, 1), (6, 1)]] 1 ∧
    (initialize_queue (fun n : ℕ => n) 2 [[(5, 1), (6, 1)]] 1 1).length
        = min 1 1 :=
  initialize_queue_sample_count (fun n : ℕ => n) 2 [[(5, 1), (6, 1)]] 1 1
    (by decide)

/-- C10: `enqueue(size)` processes exactly the first `min size loader.length`
batches of the data source; each class slot receives one appended entry per
processed batch, so the requested `size` is only an upper bound on the number
of appended entries when the loader runs short. -/
theorem enqueue_take_spec (f : I → α) (C : ℕ) (loader : List (List (I × ℕ)))
    (size : ℕ) (q : Queue α) (c : ℕ) (hc : c < C) :
    enqueue f C loader size q c
        = q c ++ (loader.take size).map (fun b => batchClassEmbeds f b c) ∧
    (enqueue f C loader size q c).length
        = (q c).length + min size loader.length := by
  refine ⟨enqueue_apply f C loader size q c hc, ?_⟩
  rw [enqueue_apply f C loader size q c hc]
  simp

theorem enqueue_take_spec_witness :
    enqueue (fun n : ℕ => n) 1 [[(3, 0)]] 5 (fun _ => []) 0
        = ([] : List (List ℕ)) ++
          ([[(3, 0)]].take 5).map (fun b => batchClassEmbeds (fun n : ℕ => n) b 0) ∧
    (enqueue (fun n : ℕ => n) 1 [[(3, 0)]] 5 (fun _ => []) 0).length
        = ([] : List (List ℕ)).length + min 5 1 :=
  enqueue_take_spec (fun n : ℕ => n) 1 [[(3, 0)]] 5 (fun _ => []) 0 (by decide)

/-- C9: slot lengths stay equal across all classes: after `initialize_queue`
every slot below `num_classes` has length `min queueSize (number of batches)`,
`enqueue` preserves equality of slot lengths (it appends one entry to every
slot), and a successful `dequeue` preserves it (it removes `size` entries from
every slot). -/
theorem queue_equal_lengths_invariant (f : I → α) (C : ℕ)
    (loader : List (List (I × ℕ))) (qs size : ℕ) (q q' : Queue α) (c : ℕ)
    (hc : c < C) (hq : EqualLens C q) (hdq : dequeue C size q = some q') :
    (initialize_queue f C loader qs c).length = min qs loader.length ∧
    EqualLens C (enqueue f C loader size q) ∧
    EqualLens C q' := by
  refine ⟨?_, ?_, ?_⟩
  · unfold initialize_queue
    rw [enqueue_apply f C loader qs _ c hc]
    simp
  · intro c₁ c₂ hc₁ hc₂
    rw [enqueue_apply f C loader size q c₁ hc₁,
      enqueue_apply f C loader size q c₂ hc₂]
    simp [hq c₁ c₂ hc₁ hc₂]
  · intro c₁ c₂ hc₁ hc₂
    obtain ⟨-, hdrop, -⟩ := dequeue_some_inv hdq
    rw [hdrop c₁ hc₁, hdrop c₂ hc₂]
    simp [hq c₁ c₂ hc₁ hc₂]

theorem queue_equal_lengths_invariant_witness :
    (initialize_queue (fun n : ℕ => n) 2 [[(5, 0)]] 1 0).length = min 1 1 ∧
    EqualLens 2 (enqueue (fun n : ℕ => n) 2 [[(5, 0)]] 1 (fun _ => [[1]])) ∧
    EqualLens 2 (fun c => if c < 2 then ([] : List (List ℕ)) else [[1]]) :=
  queue_equal_lengths_invariant (fun n : ℕ => n) 2 [[(5, 0)]] 1 1
    (fun _ => [[1]]) (fun c => if c < 2 then [] else [[1]]) 0 (by decide)
    (fun _ _ _ _ => rfl)
    (by rw [dequeue_eq_some (fun c hc => by decide)]; rfl)

/-- C6: `dequeue(size)` underflows precisely when some class slot holds fewer
than `size` entries, in which case the call fails hard (`none`, the embedded
`IndexError` of `list.pop(0)`); otherwise it succeeds and removes exactly the
`size` oldest entries from every class slot. -/
theorem dequeue_underflow_spec (C size : ℕ) (q : Queue α) :
    dequeue C size q =
      if ∀ c, c < C → size ≤ (q c).length then
        some (fun c => if c < C then (q c).drop size else q c)
      else none := by
  by_cases h : ∀ c, c < C → size ≤ (q c).length
  · rw [if_pos h, dequeue_eq_some h]
  · rw [if_neg h]
    push_neg at h
    obtain ⟨c, hc, hlt⟩ := h
    exact dequeue_eq_none ⟨c, hc, hlt⟩

/-- C4: after `enqueue(1)` followed by `dequeue(1)` on a queue whose slots are
all non-empty (and with data available), every slot's length is unchanged, and
the oldest remaining entry of a slot is the entry that was second-oldest before
the pair of operations: appending happens at the end, removal at index 0. -/
theorem enqueue_dequeue_fifo (f : I → α) (C : ℕ)
    (loader : List (List (I × ℕ))) (q : Queue α) (hloader : loader ≠ [])
    (hne : ∀ c', c' < C → q c' ≠ []) (c : ℕ) (hc : c < C) :
    (dequeue C 1 (enqueue f C loader 1 q)).map (fun q' => (q' c).length)
        = some (q c).length ∧
    (2 ≤ (q c).length →
      (dequeue C 1 (enqueue f C loader 1 q)).map (fun q' => (q' c).head?)
        = some ((q c)[1]?)) := by
  obtain ⟨b, rest, rfl⟩ : ∃ b rest, loader = b :: rest := by
    cases loader with
    | nil => exact absurd rfl hloader
    | cons b rest => exact ⟨b, rest, rfl⟩
  have hq₁ : ∀ c', c' < C →
      enqueue f C (b :: rest) 1 q c' = q c' ++ [batchClassEmbeds f b c'] := by
    intro c' hc'
    rw [enqueue_apply f C _ 1 q c' hc']
    simp
  have hlen : ∀ c', c' < C → 1 ≤ (enqueue f C (b :: rest) 1 q c').length := by
    intro c' hc'
    rw [hq₁ c' hc']
    simp
  rw [dequeue_eq_some hlen]
  constructor
  · simp only [Option.map_some', if_pos hc, hq₁ c hc]
    simp
  · intro h2
    simp only [Option.map_some', if_pos hc, hq₁ c hc]
    have h1 : 1 < (q c).length := by omega
    rw [List.head?_drop, List.getElem?_append_left h1]

theorem enqueue_dequeue_fifo_witness :
    (dequeue 1 1 (enqueue (fun n : ℕ => n) 1 [[(7, 0)]] 1
        (fun _ => [[1], [2]]))).map (fun q' => (q' 0).length)
      = some (([[1], [2]] : List (List ℕ)).length) ∧
    (dequeue 1 1 (enqueue (fun n : ℕ => n) 1 [[(7, 0)]] 1
        (fun _ => [[1], [2]]))).map (fun q' => (q' 0).head?)
      = some (([[1], [2]] : List (List ℕ))[1]?) :=
  ⟨(enqueue_dequeue_fifo (fun n : ℕ => n) 1 [[(7, 0)]] (fun _ => [[1], [2]])
      (by decide) (fun _ _ => List.cons_ne_nil _ _) 0 (by decide)).1,
   (enqueue_dequeue_fifo (fun n : ℕ => n) 1 [[(7, 0)]] (fun _ => [[1], [2]])
      (by decide) (fun _ _ => List.cons_ne_nil _ _) 0 (by decide)).2
     (by decide)⟩

end QueueClaims

section MomentumLemmas

lemma momentum_update_zero :
    ∀ (s t : List ℚ), s.length = t.length → momentum_update 0 s t = s
  | [], [], _ => rfl
  | [], _ :: _, h => by simp at h
  | _ :: _, [], h => by simp at h
  | sv :: s, tv :: t, h => by
      simp only [momentum_update, List.zipWith_cons_cons]
      have hs : momentum_update 0 s t = s :=
        momentum_update_zero s t (by simpa using h)
      simp only [momentum_update] at hs
      rw [hs]
      norm_num

lemma momentum_update_one :
    ∀ (s t : List ℚ), s.length = t.length → momentum_update 1 s t = t
  | [], [], _ => rfl
  | [], _ :: _, h => by simp at h
  | _ :: _, [], h => by simp at h
  | sv :: s, tv :: t, h => by
      simp only [momentum_update, List.zipWith_cons_cons]
      have hs : momentum_update 1 s t = t :=
        momentum_update_one s t (by simpa using h)
      simp only [momentum_update] at hs
      rw [hs]
      norm_num

lemma momentum_update_getElem? (m : ℚ) :
    ∀ (s t : List ℚ) (j : ℕ), s.length = t.length →
      (momentum_update m s t)[j]?
        = (s[j]?).bind fun sv => (t[j]?).map fun tv => m * tv + (1 - m) * sv
  | [], [], _, _ => by simp [momentum_update]
  | [], _ :: _, _, h => by simp at h
  | _ :: _, [], _, h => by simp at h
  | sv :: s, tv :: t, 0, h => by simp [momentum_update]
  | sv :: s, tv :: t, j + 1, h => by
      simp only [momentum_update, List.zipWith_cons_cons,
        List.getElem?_cons_succ]
      exact momentum_update_getElem? m s t j (by simpa using h)

end MomentumLemmas

section MomentumClaim

/-- C2: `momentum_synchronize(m)` updates every teacher parameter entry, over
positionally aligned parameter sequences of identical shapes, to
`m*teacher + (1-m)*student`; with `m = 0` every teacher parameter becomes
equal to the corresponding student parameter, and with `m = 1` every teacher
parameter is left unchanged regardless of the student's values. -/
theorem momentum_synchronize_props (m : ℚ) (s t : List (List ℚ)) (i j : ℕ)
    (hlen : s.length = t.length)
    (hshape : ∀ (k : ℕ) (lk lt : List ℚ), s[k]? = some lk → t[k]? = some lt →
      lk.length = lt.length) :
    momentum_synchronize 0 s t = s ∧
    momentum_synchronize 1 s t = t ∧
    ((momentum_synchronize m s t)[i]?.bind fun p => p[j]?)
      = ((s[i]?.bind fun p => p[j]?).bind fun sv =>
          ((t[i]?.bind fun p => p[j]?).map fun tv => m * tv + (1 - m) * sv)) := by
  induction s generalizing t i with
  | nil =>
    cases t with
    | nil => simp [momentum_synchronize]
    | cons p t' => simp at hlen
  | cons p s' ih =>
    cases t with
    | nil => simp at hlen
    | cons r t' =>
      have hlen' : s'.length = t'.length := by simpa using hlen
      have hpr : p.length = r.length :=
        hshape 0 p r (by simp) (by simp)
      have hshape' : ∀ (k : ℕ) (lk lt : List ℚ), s'[k]? = some lk →
          t'[k]? = some lt → lk.length = lt.length := by
        intro k lk lt h1 h2
        exact hshape (k + 1) lk lt (by simpa using h1) (by simpa using h2)
      obtain ⟨ih0, ih1, ihe⟩ := ih t' 0 hlen' hshape'
      refine ⟨?_, ?_, ?_⟩
      · simp only [momentum_synchronize, List.zipWith_cons_cons] at ih0 ⊢
        rw [ih0, momentum_update_zero p r hpr]
      · simp only [momentum_synchronize, List.zipWith_cons_cons] at ih1 ⊢
        rw [ih1, momentum_update_one p r hpr]
      · cases i with
        | zero =>
          simp only [momentum_synchronize, List.zipWith_cons_cons,
            List.getElem?_cons_zero, Option.some_bind]
          exact momentum_update_getElem? m p r j hpr
        | succ i' =>
          simp only [momentum_synchronize, List.zipWith_cons_cons,
            List.getElem?_cons_succ]
          exact (ih t' i' hlen' hshape').2.2

theorem momentum_synchronize_props_witness :
    momentum_synchronize 0 [[1, 2]] [[5, 6]] = [[1, 2]] ∧
    momentum_synchronize 1 [[1, 2]] [[5, 6]] = [[5, 6]] ∧
    ((momentum_synchronize (1 / 2) [[1, 2]] [[5, 6]])[0]?.bind
        fun p => p[0]?)
      = ((([[(1 : ℚ), 2]])[0]?.bind fun p => p[0]?).bind fun sv =>
          ((([[(5 : ℚ), 6]])[0]?.bind fun p => p[0]?).map
            fun tv => (1 / 2) * tv + (1 - 1 / 2) * sv)) :=
  momentum_synchronize_props (1 / 2) [[1, 2]] [[5, 6]] 0 0 (by decide)
    (by
      intro k lk lt h1 h2
      cases k with
      | zero =>
        simp only [List.getElem?_cons_zero, Option.some_inj] at h1 h2
        rw [← h1, ← h2]
        rfl
      | succ k' => simp at h1)

end MomentumClaim

section GetQueueClaim

variable {α : Type}

lemma pairwise_le_replicate (n a : ℕ) :
    List.Pairwise (· ≤ ·) (List.replicate n a) := by
  induction n with
  | zero => simp
  | succ n ih =>
    rw [List.replicate_succ]
    exact List.Pairwise.cons
      (fun b hb => le_of_eq (List.eq_of_mem_replicate hb).symm) ih

/-- C5: whenever `get_queue` succeeds, the returned embedding batch has one row
per queued embedding (its length is the sum over classes of the class's queued
sample count), the returned label sequence is parallel to it, the labels are
grouped contiguously in ascending class order, and each class label `c` occurs
exactly once per queued embedding of class `c` — a class with zero queued
samples contributes nothing. -/
theorem get_queue_spec (C : ℕ) (q : Queue α) (x : List α) (ys : List ℕ)
    (c : ℕ) (hc : c < C) (h : get_queue C q = some (x, ys)) :
    x.length = ∑ i ∈ Finset.range C, slotSamples (q i) ∧
    ys.length = x.length ∧
    List.Sorted (· ≤ ·) ys ∧
    ys.count c = slotSamples (q c) := by
  unfold get_queue at h
  split_ifs at h with hcond
  · simp only [Option.some_inj, Prod.mk.injEq] at h
    obtain ⟨hx, hy⟩ := h
    subst hx
    subst hy
    refine ⟨?_, ?_, ?_, ?_⟩
    · simp only [List.length_flatten, List.map_map, Function.comp_def,
        slotSamples]
      rfl
    · simp only [List.length_flatten, List.map_map, Function.comp_def,
        List.length_replicate]
    · rw [List.Sorted, List.pairwise_flatten]
      constructor
      · intro l hl
        simp only [List.mem_map] at hl
        obtain ⟨c', _, rfl⟩ := hl
        exact pairwise_le_replicate _ c'
      · rw [List.pairwise_map]
        refine (List.pairwise_lt_range C).imp ?_
        intro a b hab u hu v hv
        rw [List.eq_of_mem_replicate hu, List.eq_of_mem_replicate hv]
        exact le_of_lt hab
    · rw [List.count_flatten, List.map_map]
      have hstep :
          ((List.range C).map
            (List.count c ∘ fun i => List.replicate ((q i).flatten).length i)).sum
            = ∑ i ∈ Finset.range C,
                if i = c then ((q i).flatten).length else 0 := by
        rw [show (∑ i ∈ Finset.range C,
              if i = c then ((q i).flatten).length else 0)
            = ((List.range C).map
                (fun i => if i = c then ((q i).flatten).length else 0)).sum
            from rfl]
        congr 1
        apply List.map_congr_left
        intro i _
        simp [List.count_replicate]
      rw [hstep, Finset.sum_ite_eq' (Finset.range C) c
        (fun i => ((q i).flatten).length), if_pos (Finset.mem_range.2 hc)]
      rw [List.length_flatten]
      rfl

theorem get_queue_spec_witness :
    ([10, 11, 20] : List ℕ).length
        = ∑ i ∈ Finset.range 2,
            slotSamples ((fun c => if c = 0 then [[10], [11]] else [[20]]) i) ∧
    ([0, 0, 1] : List ℕ).length = ([10, 11, 20] : List ℕ).length ∧
    List.Sorted (· ≤ ·) [0, 0, 1] ∧
    ([0, 0, 1] : List ℕ).count 1
        = slotSamples ((fun c => if c = 0 then [[10], [11]] else [[20]]) 1) :=
  get_queue_spec 2 (fun c => if c = 0 then [[10], [11]] else [[20]])
    [10, 11, 20] [0, 0, 1] 1 (by decide) (by decide)

end GetQueueClaim

section LossLemmas

lemma l2norm_smul {d : ℕ} (k : ℝ) (hk : 0 ≤ k) (v : Fin d → ℝ) :
    l2norm (fun j => k * v j) = k * l2norm v := by
  unfold l2norm
  rw [show (∑ j, (k * v j) ^ 2) = k ^ 2 * ∑ j, v j ^ 2 by
    rw [Finset.mul_sum]
    exact Finset.sum_congr rfl fun j _ => by ring]
  rw [Real.sqrt_mul (sq_nonneg k), Real.sqrt_sq hk]

lemma l2normalize_smul {d : ℕ} (k : ℝ) (hk : 0 < k) (v : Fin d → ℝ) :
    l2normalize (fun j => k * v j) = l2normalize v := by
  funext j
  unfold l2normalize
  rw [l2norm_smul k hk.le v, mul_div_mul_left (v j) (l2norm v) (ne_of_gt hk)]

end LossLemmas

section LossClaims

/-- C1: `chr_loss` computes exactly the spec's formula: L2-normalize the batch
and queue embeddings along the feature dimension, form
`gram = normalize(x) @ normalize(queue_x)^T / t`, weight by the numeric outer
product `labelMask[i,j] = y_i * queue_y_j` (not an equality indicator), and
return `-sum(labelMask * log(softmax(gram)))/sum(labelMask)`; moreover any
pair involving a class-0 sample gets label-mask weight zero, hence contributes
nothing to numerator or denominator. -/
theorem chr_loss_matches_spec {n1 n2 d : ℕ} (x : Fin n1 → Fin d → ℝ)
    (y : Fin n1 → ℕ) (queue_x : Fin n2 → Fin d → ℝ) (queue_y : Fin n2 → ℕ)
    (t : ℝ) :
    chr_loss x y queue_x queue_y t = chr_lossSpec x y queue_x queue_y t ∧
    ∀ (i : Fin n1) (j : Fin n2), y i = 0 ∨ queue_y j = 0 →
      labelMask y queue_y i j = 0 := by
  constructor
  · simp only [chr_loss, chr_lossSpec, labelMask, gramMatrix]
    split_ifs with h
    · rfl
    · congr 1
      simp only [neg_mul, Finset.sum_neg_distrib]
      rfl
  · intro i j h0
    rcases h0 with h | h <;> simp [labelMask, h]

theorem chr_loss_matches_spec_witness :
    chr_loss (fun (_ : Fin 1) (_ : Fin 1) => (1 : ℝ)) (fun _ => 0)
        (fun (_ : Fin 1) (_ : Fin 1) => (1 : ℝ)) (fun _ => 1) 1
      = chr_lossSpec (fun (_ : Fin 1) (_ : Fin 1) => (1 : ℝ)) (fun _ => 0)
        (fun (_ : Fin 1) (_ : Fin 1) => (1 : ℝ)) (fun _ => 1) 1 ∧
    labelMask (fun (_ : Fin 1) => 0) (fun (_ : Fin 1) => 1) 0 0 = 0 :=
  ⟨(@chr_loss_matches_spec 1 1 1 (fun _ _ => 1) (fun _ => 0) (fun _ _ => 1)
      (fun _ => 1) 1).1,
   (@chr_loss_matches_spec 1 1 1 (fun _ _ => 1) (fun _ => 0) (fun _ _ => 1)
      (fun _ => 1) 1).2 0 0 (Or.inl rfl)⟩

/-- C7: `chr_loss` is invariant under uniform positive rescaling of the raw
batch embeddings: the embeddings are L2-normalized before any further use, and
normalization cancels a positive scalar factor. -/
theorem chr_loss_scale_invariance {n1 n2 d : ℕ} (k : ℝ) (hk : 0 < k)
    (x : Fin n1 → Fin d → ℝ) (y : Fin n1 → ℕ) (queue_x : Fin n2 → Fin d → ℝ)
    (queue_y : Fin n2 → ℕ) (t : ℝ) :
    chr_loss (fun i j => k * x i j) y queue_x queue_y t
      = chr_loss x y queue_x queue_y t := by
  simp only [chr_loss, l2normalize_smul k hk]

theorem chr_loss_scale_invariance_witness :
    chr_loss (fun (_ : Fin 1) (_ : Fin 1) => 2 * (3 : ℝ)) (fun _ => 1)
        (fun (_ : Fin 1) (_ : Fin 1) => (1 : ℝ)) (fun _ => 1) 1
      = chr_loss (fun (_ : Fin 1) (_ : Fin 1) => (3 : ℝ)) (fun _ => 1)
        (fun (_ : Fin 1) (_ : Fin 1) => (1 : ℝ)) (fun _ => 1) 1 :=
  chr_loss_scale_invariance 2 (by norm_num) (fun _ _ => 3) (fun _ => 1)
    (fun _ _ => 1) (fun _ => 1) 1

/-- C8: when the label-mask sum is zero (for instance when every batch label is
class 0), the unguarded division `.../sum(label_mask)` divides by zero and the
returned loss is non-finite (`none` in this embedding) rather than a raised
error or a guarded finite value. -/
theorem chr_loss_degenerate {n1 n2 d : ℕ} (x : Fin n1 → Fin d → ℝ)
    (y : Fin n1 → ℕ) (queue_x : Fin n2 → Fin d → ℝ) (queue_y : Fin n2 → ℕ)
    (t : ℝ) (h : ∑ i, ∑ j, (y i : ℝ) * (queue_y j : ℝ) = 0) :
    chr_loss x y queue_x queue_y t = none := by
  simp only [chr_loss]
  rw [if_pos h]

theorem chr_loss_degenerate_witness :
    chr_loss (fun (_ : Fin 1) (_ : Fin 1) => (1 : ℝ)) (fun _ => 0)
        (fun (_ : Fin 1) (_ : Fin 1) => (1 : ℝ)) (fun _ => 1) 1 = none :=
  chr_loss_degenerate (fun _ _ => 1) (fun _ => 0) (fun _ _ => 1) (fun _ => 1)
    1 (by simp)

end LossClaims

end SupervisedContrast
